import Mathlib

/-!
Shallow embedding of the retrieval core of the chatbot repository:
`src/utils/textProcessing.ts` (chunking, tokenization, key-sentence
extraction) and `src/utils/vectorStore.ts` (TF-IDF indexing and
cosine-similarity search).

Modelling conventions:
* JS strings are modelled as `List Char`; lengths are character counts.
* The JS whitespace class `\s` is modelled by its ASCII subset and the
  word class `\w` by ASCII alphanumerics plus underscore, matching the
  characters that actually occur in the regexes of the source.
* JS `Map`s and plain objects used as dictionaries are modelled as
  association lists in insertion order; `m.get(k) || 0` becomes
  `(l.lookup k).getD 0`.
* JS floating-point numbers are idealized as real numbers (`ℝ`);
  `Math.log` is `Real.log` and `Math.sqrt` is `Real.sqrt`.
* `Array.prototype.sort` (stable since ES2019) with comparator
  `(a, b) => b.x - a.x` is modelled by `List.mergeSort`, which is stable,
  with the corresponding boolean order.
-/

set_option maxRecDepth 4000

unseal List.merge List.mergeSort

namespace Chatbot

/-! ### Generic list helpers -/

/-- First-occurrence-preserving deduplication, as performed by the JS idiom
`array.filter((x, i, a) => a.indexOf(x) === i)` and by iterating a JS `Set`. -/
def dedupFirstAux [DecidableEq α] : List α → List α → List α
  | [], _ => []
  | a :: l, seen => if a ∈ seen then dedupFirstAux l seen else a :: dedupFirstAux l (a :: seen)

def dedupFirst [DecidableEq α] (l : List α) : List α := dedupFirstAux l []

theorem mem_dedupFirstAux [DecidableEq α] {x : α} :
    ∀ {l seen : List α}, x ∈ dedupFirstAux l seen ↔ x ∈ l ∧ x ∉ seen := by
  intro l
  induction l with
  | nil => intro seen; simp [dedupFirstAux]
  | cons a l ih =>
    intro seen
    simp only [dedupFirstAux]
    by_cases ha : a ∈ seen
    · rw [if_pos ha, ih]
      constructor
      · rintro ⟨h1, h2⟩
        exact ⟨List.mem_cons_of_mem _ h1, h2⟩
      · rintro ⟨h1, h2⟩
        rcases List.mem_cons.mp h1 with rfl | h1
        · exact absurd ha h2
        · exact ⟨h1, h2⟩
    · rw [if_neg ha]
      constructor
      · intro h
        rcases List.mem_cons.mp h with rfl | h
        · exact ⟨List.mem_cons_self _ _, ha⟩
        · obtain ⟨h1, h2⟩ := ih.mp h
          exact ⟨List.mem_cons_of_mem _ h1, fun hs => h2 (List.mem_cons_of_mem _ hs)⟩
      · rintro ⟨h1, h2⟩
        rcases List.mem_cons.mp h1 with rfl | h1
        · exact List.mem_cons_self _ _
        · by_cases hxa : x = a
          · subst hxa; exact List.mem_cons_self _ _
          · refine List.mem_cons_of_mem _ (ih.mpr ⟨h1, fun hs => ?_⟩)
            rcases List.mem_cons.mp hs with h | h
            · exact hxa h
            · exact h2 h

theorem mem_dedupFirst [DecidableEq α] {x : α} {l : List α} :
    x ∈ dedupFirst l ↔ x ∈ l := by
  simp [dedupFirst, mem_dedupFirstAux]

theorem nodup_dedupFirstAux [DecidableEq α] :
    ∀ (l seen : List α), (dedupFirstAux l seen).Nodup := by
  intro l
  induction l with
  | nil => intro seen; simp [dedupFirstAux]
  | cons a l ih =>
    intro seen
    by_cases ha : a ∈ seen
    · simpa [dedupFirstAux, if_pos ha] using ih seen
    · simp only [dedupFirstAux, if_neg ha, List.nodup_cons]
      refine ⟨fun hmem => ?_, ih (a :: seen)⟩
      exact (mem_dedupFirstAux.mp hmem).2 (List.mem_cons_self a seen)

theorem nodup_dedupFirst [DecidableEq α] (l : List α) : (dedupFirst l).Nodup :=
  nodup_dedupFirstAux l []

theorem dedupFirstAux_of_nodup [DecidableEq α] :
    ∀ {l seen : List α}, l.Nodup → (∀ x ∈ l, x ∉ seen) → dedupFirstAux l seen = l := by
  intro l
  induction l with
  | nil => intro seen _ _; rfl
  | cons a l ih =>
    intro seen hnd hdisj
    have ha : a ∉ seen := hdisj a (List.mem_cons_self a l)
    have hal : a ∉ l := (List.nodup_cons.mp hnd).1
    simp only [dedupFirstAux, if_neg ha]
    congr 1
    exact ih (List.nodup_cons.mp hnd).2 (by
      intro x hx
      simp only [List.mem_cons]
      rintro (rfl | hxs)
      · exact hal hx
      · exact hdisj x (List.mem_cons_of_mem _ hx) hxs)

theorem dedupFirst_of_nodup [DecidableEq α] {l : List α} (h : l.Nodup) :
    dedupFirst l = l :=
  dedupFirstAux_of_nodup h (by simp)

/-- Looking up a key in an association list built by tabulating a function over
a key list returns the function value whenever the key occurs. -/
theorem lookup_map_tabulate [BEq α] [LawfulBEq α] (f : α → β) :
    ∀ {keys : List α} {t : α}, t ∈ keys →
      (keys.map (fun k => (k, f k))).lookup t = some (f t) := by
  intro keys
  induction keys with
  | nil => intro t h; cases h
  | cons k keys ih =>
    intro t ht
    by_cases htk : t = k
    · subst htk
      simp [List.map_cons, List.lookup_cons]
    · have hmem : t ∈ keys := by
        rcases List.mem_cons.mp ht with h | h
        · exact absurd h htk
        · exact h
      have hbeq : (t == k) = false := by simpa using htk
      simp only [List.map_cons, List.lookup_cons, hbeq]
      exact ih hmem

/-- A successful association-list lookup returns a value stored in the list. -/
theorem mem_of_lookup_eq_some [BEq α] [LawfulBEq α] {b : β} :
    ∀ {l : List (α × β)} {a : α}, l.lookup a = some b → (a, b) ∈ l := by
  intro l
  induction l with
  | nil => intro a h; cases h
  | cons p l ih =>
    intro a h
    obtain ⟨k, v⟩ := p
    by_cases hpa : a = k
    · subst hpa
      simp only [List.lookup_cons, beq_self_eq_true] at h
      cases h
      exact List.mem_cons_self _ _
    · have hbeq : (a == k) = false := by simpa using hpa
      simp only [List.lookup_cons, hbeq] at h
      exact List.mem_cons_of_mem _ (ih h)

/-! ### Character classes and basic string operations -/

/-- ASCII subset of the JS regex class `\s`. -/
def isWs (c : Char) : Bool :=
  c = ' ' || c = '\t' || c = '\n' || c = '\r' || c = '\x0b' || c = '\x0c'

/-- The JS regex class `\w` (ASCII): letters, digits, underscore. -/
def isWordChar (c : Char) : Bool := c.isAlphanum || c = '_'

/-- Sentence-terminator characters of the regexes `[.!?]+\s+` and `[.!?]+`. -/
def isPunct (c : Char) : Bool := c = '.' || c = '!' || c = '?'

/-- `String.prototype.trim`: strip whitespace from both ends. -/
def trim (s : List Char) : List Char :=
  ((s.dropWhile isWs).reverse.dropWhile isWs).reverse

/-- `replace(/\s+/g, ' ')`: collapse each whitespace run to a single space. -/
def collapseWs : List Char → List Char
  | [] => []
  | [c] => if isWs c then [' '] else [c]
  | c :: d :: rest =>
    if isWs c && isWs d then collapseWs (d :: rest)
    else (if isWs c then ' ' else c) :: collapseWs (d :: rest)

/-- Split at every separator character (used for `split(/\s+/)` on collapsed
text and, up to empty segments that are filtered away afterwards, for
`split(/[.!?]+/)`). -/
def splitOnPredAux (p : Char → Bool) : List Char → List Char → List (List Char)
  | [], cur => [cur.reverse]
  | c :: rest, cur =>
    if p c then cur.reverse :: splitOnPredAux p rest []
    else splitOnPredAux p rest (c :: cur)

def splitOnPred (p : Char → Bool) (s : List Char) : List (List Char) :=
  splitOnPredAux p s []

/-! ### Tokenizer (`preprocessText`, `extractTerms` of textProcessing.ts) -/

/-- The stop-word set of `extractTerms`. -/
def stopWords : List (List Char) :=
  (["the", "a", "an", "and", "or", "but", "in", "on", "at", "to", "for", "of", "with",
    "by", "is", "are", "was", "were", "be", "been", "have", "has", "had", "do", "does",
    "did", "will", "would", "could", "should", "may", "might", "must", "can", "this",
    "that", "these", "those", "i", "you", "he", "she", "it", "we", "they", "me", "him",
    "her", "us", "them", "my", "your", "his", "its", "our", "their"]).map String.toList

/-- `preprocessText`: lowercase, replace non-word non-space characters by a
space, collapse whitespace, trim. -/
def preprocessText (text : List Char) : List Char :=
  trim (collapseWs ((text.map Char.toLower).map
    (fun c => if !isWordChar c && !isWs c then ' ' else c)))

/-- The token stream of `extractTerms` before its final deduplication filter:
whitespace-split tokens of the preprocessed text with length > 2 that are not
stop-words.  (`extractTerms` applies `dedupFirst` on top of this.) -/
def survivingTokens (text : List Char) : List (List Char) :=
  (splitOnPred (fun c => c = ' ') (preprocessText text)).filter
    (fun term => decide (2 < term.length) && !(stopWords.contains term))

/-- `extractTerms`: surviving tokens, deduplicated keeping first occurrences. -/
def extractTerms (text : List Char) : List (List Char) :=
  dedupFirst (survivingTokens text)

example : extractTerms "The cat sat on the mat.".toList = ["cat", "sat", "mat"].map String.toList := by decide

example : extractTerms "fox fox dog".toList = ["fox", "dog"].map String.toList := by decide

example : extractTerms "the and of".toList = [] := by decide

/-! ### Chunker (`chunkText` of textProcessing.ts) -/

/-- `CHUNK_CONFIG.targetSize`. -/
def targetSize : Nat := 800
/-- `CHUNK_CONFIG.maxSize`. -/
def maxSize : Nat := 1200
/-- `CHUNK_CONFIG.minSize`. -/
def minSize : Nat := 200
/-- `CHUNK_CONFIG.overlapSize`. -/
def overlapSize : Nat := 100

structure DocumentChunk where
  id : String
  text : List Char
  pageNumber : Nat
  chunkIndex : Nat
  startOffset : Int
  endOffset : Int
deriving DecidableEq, Inhabited

/-- `getPageNumber`: index of the first page break strictly above the offset,
1-based; one past the last page if none. -/
def getPageNumber (offset : Int) (pageBreaks : List Int) : Nat :=
  match pageBreaks.findIdx? (fun b => decide (offset < b)) with
  | some i => i + 1
  | none => pageBreaks.length + 1

/-- `createChunk`. -/
def createChunk (text : List Char) (chunkIndex : Nat) (startOffset endOffset : Int)
    (pageBreaks : List Int) : DocumentChunk :=
  { id := "chunk-" ++ toString chunkIndex, text := text,
    pageNumber := getPageNumber startOffset pageBreaks,
    chunkIndex := chunkIndex, startOffset := startOffset, endOffset := endOffset }

/-- Index of the last newline character in a list, if any. -/
def lastNlIdx (run : List Char) : Option Nat :=
  (run.reverse.findIdx? (fun c => c = '\n')).map (fun j => run.length - 1 - j)

/-- Length of the match of the paragraph-break regex `\n\s*\n` starting exactly
at the head of the list, if it matches there.  The greedy `\s*` consumes up to
the last newline inside the maximal whitespace run after the leading newline. -/
def paraBreakLen : List Char → Option Nat
  | '\n' :: rest =>
    match lastNlIdx (rest.takeWhile isWs) with
    | some m => some (m + 2)
    | none => none
  | _ => none

/-- `split(/\n\s*\n/)`: repeated leftmost matching of the paragraph break.
The fuel argument (initialized to the string length) bounds the recursion;
every step consumes at least one character. -/
def splitParagraphsAux : Nat → List Char → List Char → List (List Char)
  | 0, cur, s => [cur.reverse ++ s]
  | _ + 1, cur, [] => [cur.reverse]
  | fuel + 1, cur, c :: rest =>
    match paraBreakLen (c :: rest) with
    | some n => cur.reverse :: splitParagraphsAux fuel [] ((c :: rest).drop n)
    | none => splitParagraphsAux fuel (c :: cur) rest

def splitParagraphs (s : List Char) : List (List Char) :=
  splitParagraphsAux s.length [] s

/-- Length of the match of the sentence-delimiter regex `[.!?]+\s+` starting
exactly at the head of the list: a maximal nonempty punctuation run followed by
a maximal nonempty whitespace run. -/
def sentBreakLen (s : List Char) : Option Nat :=
  let p := s.takeWhile isPunct
  if p.isEmpty then none
  else
    let w := (s.drop p.length).takeWhile isWs
    if w.isEmpty then none else some (p.length + w.length)

/-- `split(/[.!?]+\s+/)` with true regex semantics (delimiters removed). -/
def splitSentencesAux : Nat → List Char → List Char → List (List Char)
  | 0, cur, s => [cur.reverse ++ s]
  | _ + 1, cur, [] => [cur.reverse]
  | fuel + 1, cur, c :: rest =>
    match sentBreakLen (c :: rest) with
    | some n => cur.reverse :: splitSentencesAux fuel [] ((c :: rest).drop n)
    | none => splitSentencesAux fuel (c :: cur) rest

def splitSentences (s : List Char) : List (List Char) :=
  splitSentencesAux s.length [] s

/-- The cumulative-position loop of `findGoodBreakPoint` over all sentences but
the last: `position += sentences[i].length + 1`, recording the last position in
`[minSize, targetSize]`, stopping past `targetSize`. -/
def fgbpLoop : List (List Char) → Nat → Nat → Nat
  | [], _, bestBreak => bestBreak
  | sent :: rest, position, bestBreak =>
    let p := position + sent.length + 1
    if minSize ≤ p ∧ p ≤ targetSize then fgbpLoop rest p p
    else if targetSize < p then bestBreak
    else fgbpLoop rest p bestBreak

/-- `findGoodBreakPoint`. -/
def findGoodBreakPoint (text : List Char) : Nat :=
  fgbpLoop (splitSentences text).dropLast 0 text.length

/-- `getOverlapText`: the last `ov` characters, moved past the first space
inside that window when one occurs at a positive index. -/
def getOverlapText (text : List Char) (ov : Nat) : List Char :=
  if text.length ≤ ov then text
  else
    let overlap := text.drop (text.length - ov)
    match overlap.findIdx? (fun c => c = ' ') with
    | some i => if 0 < i then overlap.drop (i + 1) else overlap
    | none => overlap

/-- Loop state of `chunkText`: emitted chunks plus the mutable locals
`chunkIndex`, `currentPosition`, `currentChunk`, `chunkStartPosition`. -/
structure ChunkState where
  chunks : List DocumentChunk
  chunkIndex : Nat
  currentPosition : Int
  currentChunk : List Char
  chunkStartPosition : Int

/-- The max-size finalization / paragraph-append block of the `chunkText`
loop body (lines 47-74 of textProcessing.ts).  Note that when the buffer is
finalized, the incoming paragraph is not appended anywhere, exactly as in the
source. -/
def stepAppend (pageBreaks : List Int) (st : ChunkState) (paragraph : List Char) : ChunkState :=
  if !st.currentChunk.isEmpty ∧ maxSize < st.currentChunk.length + paragraph.length then
    if minSize ≤ st.currentChunk.length then
      let c := createChunk (trim st.currentChunk) st.chunkIndex st.chunkStartPosition
        (st.currentPosition - 1) pageBreaks
      let overlap := getOverlapText st.currentChunk overlapSize
      { st with chunks := st.chunks ++ [c], chunkIndex := st.chunkIndex + 1,
                currentChunk := overlap,
                chunkStartPosition := st.currentPosition - (overlap.length : Int) }
    else
      { st with currentChunk := st.currentChunk ++ '\n' :: '\n' :: paragraph }
  else
    if !st.currentChunk.isEmpty then
      { st with currentChunk := st.currentChunk ++ '\n' :: '\n' :: paragraph }
    else
      { st with currentChunk := paragraph, chunkStartPosition := st.currentPosition }

/-- The target-size sentence-boundary break block of the `chunkText` loop body
(lines 78-97 of textProcessing.ts). -/
def stepTargetBreak (pageBreaks : List Int) (st : ChunkState) : ChunkState :=
  if targetSize ≤ st.currentChunk.length then
    let sentenceBreak := findGoodBreakPoint st.currentChunk
    if minSize < sentenceBreak then
      let c := createChunk (trim (st.currentChunk.take sentenceBreak)) st.chunkIndex
        st.chunkStartPosition (st.chunkStartPosition + (sentenceBreak : Int)) pageBreaks
      let remainder := trim (st.currentChunk.drop (sentenceBreak - overlapSize))
      { st with chunks := st.chunks ++ [c], chunkIndex := st.chunkIndex + 1,
                currentChunk := remainder,
                chunkStartPosition :=
                  st.chunkStartPosition + (sentenceBreak : Int) - (overlapSize : Int) }
    else st
  else st

/-- One iteration of the `chunkText` paragraph loop. -/
def processParagraph (pageBreaks : List Int) (st : ChunkState) (rawPara : List Char) : ChunkState :=
  let paragraph := trim rawPara
  if paragraph.isEmpty then
    { st with currentPosition := st.currentPosition + (paragraph.length : Int) + 2 }
  else
    let st1 := stepAppend pageBreaks st paragraph
    let st2 := { st1 with currentPosition := st1.currentPosition + (paragraph.length : Int) + 2 }
    stepTargetBreak pageBreaks st2

/-- `chunkText`. -/
def chunkText (text : List Char) (pageBreaks : List Int) : List DocumentChunk :=
  let st := (splitParagraphs text).foldl (processParagraph pageBreaks)
    { chunks := [], chunkIndex := 0, currentPosition := 0, currentChunk := [],
      chunkStartPosition := 0 }
  if !(trim st.currentChunk).isEmpty ∧ minSize ≤ st.currentChunk.length then
    st.chunks ++ [createChunk (trim st.currentChunk) st.chunkIndex st.chunkStartPosition
      (st.currentPosition - 1) pageBreaks]
  else st.chunks

/-! ### Key-sentence extraction (`extractKeySentences` of textProcessing.ts) -/

/-- Number of non-overlapping leftmost occurrences of a nonempty pattern,
as counted by `(s.match(new RegExp(term, 'g')) || []).length` for a literal
word pattern; the fuel (initialized to the string length) bounds recursion. -/
def countOccsAux (pat : List Char) : Nat → List Char → Nat
  | 0, _ => 0
  | _ + 1, [] => 0
  | fuel + 1, c :: rest =>
    if (c :: rest).take pat.length = pat then
      1 + countOccsAux pat fuel ((c :: rest).drop pat.length)
    else countOccsAux pat fuel rest

/-- Occurrence count, with the JS behaviour that the empty pattern matches at
every position (`s.length + 1` matches). -/
def countOccs (pat s : List Char) : Nat :=
  if pat.isEmpty then s.length + 1 else countOccsAux pat s.length s

/-- `String.prototype.includes`. -/
def containsSub (pat : List Char) : List Char → Bool
  | [] => pat.isEmpty
  | c :: rest => pat == (c :: rest).take pat.length || containsSub pat rest

/-- The per-sentence score of `extractKeySentences`: occurrences of each query
term weighted by the term's length, plus `uniqueTermsFound * 50` when more than
one entry of the (lower-cased) query-term list occurs in the sentence.  Note
the found-terms filter runs over the query-term *list*, counting duplicate
entries separately. -/
def sentenceScore (queryTermsLower : List (List Char)) (sentence : List Char) : Nat :=
  let sentenceLower := sentence.map Char.toLower
  let base := (queryTermsLower.map (fun t => countOccs t sentenceLower * t.length)).sum
  let uniqueTermsFound := (queryTermsLower.filter (fun t => containsSub t sentenceLower)).length
  base + (if 1 < uniqueTermsFound then uniqueTermsFound * 50 else 0)

/-- `extractKeySentences`: split on sentence terminators, trim, drop empties,
score, keep positive scores, stable-sort descending by score, take 3.
(Splitting at every single terminator instead of at terminator runs only
inserts empty segments, which the nonempty filter removes, so the sentence
list agrees with `split(/[.!?]+/)` followed by trim-and-filter.) -/
def extractKeySentences (text : List Char) (queryTerms : List (List Char)) : List (List Char) :=
  let sentences := ((splitOnPred isPunct text).map trim).filter (fun s => !s.isEmpty)
  let queryTermsLower := queryTerms.map (fun t => t.map Char.toLower)
  let scoredSentences :=
    (sentences.map (fun s => (s, sentenceScore queryTermsLower s))).filter
      (fun p => decide (0 < p.2))
  ((scoredSentences.mergeSort (fun a b => decide (b.2 ≤ a.2))).take 3).map Prod.fst

/-- The sentence score as worded by the specification (§4.4 step 5): the bonus
is `50 × (number of DISTINCT query terms found)` and applies when more than one
distinct query term appears.  Kept only to compare against `sentenceScore`,
which counts duplicate query-list entries. -/
def specSentenceScore (queryTermsLower : List (List Char)) (sentence : List Char) : Nat :=
  let sentenceLower := sentence.map Char.toLower
  let base := (queryTermsLower.map (fun t => countOccs t sentenceLower * t.length)).sum
  let distinctFound :=
    ((dedupFirst queryTermsLower).filter (fun t => containsSub t sentenceLower)).length
  base + (if 1 < distinctFound then distinctFound * 50 else 0)

example :
    extractKeySentences "Paris is the capital of France. It has a population of over two million. The Eiffel Tower is located there.".toList
      (["paris", "population"].map String.toList)
      = ["It has a population of over two million", "Paris is the capital of France"].map String.toList := by
  decide

/-! ### Vector store (vectorStore.ts) -/

/-- A normalized token. -/
abbrev Term := List Char

/-- A sparse TF-IDF vector, as an association list in insertion order. -/
abbrev TFIDFVector := List (Term × ℝ)

/-- Sparse read `v[k] || 0` (also used for `map.get(k) || 0`). -/
def vecVal (v : TFIDFVector) (k : Term) : ℝ := (v.lookup k).getD 0

structure ProcessedChunk extends DocumentChunk where
  tfidfVector : TFIDFVector
  termCount : Nat

structure VectorStore where
  chunks : List ProcessedChunk
  vocabulary : List Term
  idfScores : List (Term × ℝ)
  isInitialized : Bool

/-- Number of documents whose term list contains `t` (the per-document term
lists are already deduplicated, so `new Set(terms)` membership coincides with
list membership). -/
def docFreq (allTerms : List (List Term)) (t : Term) : Nat :=
  allTerms.countP (fun doc => decide (t ∈ doc))

/-- `calculateIDF`: one entry per term occurring in some document (keys in
first-appearance order across documents), with value
`log(documentCount / docCount)`. -/
noncomputable def calculateIDF (allTerms : List (List Term)) : List (Term × ℝ) :=
  (dedupFirst (allTerms.map dedupFirst).flatten).map
    (fun t => (t, Real.log ((allTerms.length : ℝ) / (docFreq allTerms t : ℝ))))

/-- `calculateTFIDF`: term-frequency map over the given term list (keys in
first-occurrence order, values raw counts within the list), then
`tf * idf` with `tf = freq / totalTerms` and `idf = idfScores.get(term) || 0`. -/
noncomputable def calculateTFIDF (idfScores : List (Term × ℝ)) (terms : List Term) : TFIDFVector :=
  (dedupFirst terms).map (fun t =>
    (t, ((terms.count t : ℝ) / (terms.length : ℝ)) * vecVal idfScores t))

/-- The key set iterated by `cosineSimilarity`: union of both key sets in
insertion order. -/
def vecKeys (vectorA vectorB : TFIDFVector) : List Term :=
  dedupFirst (vectorA.map Prod.fst ++ vectorB.map Prod.fst)

/-- The accumulated `magnitudeA` (respectively `magnitudeB`) of
`cosineSimilarity`: sum of squared coordinates over the iterated keys. -/
noncomputable def magnitudeSq (keys : List Term) (v : TFIDFVector) : ℝ :=
  (keys.map (fun k => vecVal v k * vecVal v k)).sum

/-- The accumulated `dotProduct` of `cosineSimilarity`. -/
noncomputable def dotProductOver (keys : List Term) (vectorA vectorB : TFIDFVector) : ℝ :=
  (keys.map (fun k => vecVal vectorA k * vecVal vectorB k)).sum

section
open Classical

/-- `cosineSimilarity`, with the `magnitude === 0` guard. -/
noncomputable def cosineSimilarity (vectorA vectorB : TFIDFVector) : ℝ :=
  let allKeys := vecKeys vectorA vectorB
  let magnitude := Real.sqrt (magnitudeSq allKeys vectorA) * Real.sqrt (magnitudeSq allKeys vectorB)
  if magnitude = 0 then 0 else dotProductOver allKeys vectorA vectorB / magnitude

/-- The order realized by the stable `sort((a, b) => b.similarity - a.similarity)`
inside `search`: descending similarity, ties kept in original array order. -/
noncomputable def simLE (a b : Nat × (ProcessedChunk × ℝ)) : Bool :=
  decide (b.2.2 < a.2.2 ∨ (a.2.2 = b.2.2 ∧ a.1 ≤ b.1))

end

/-- `initializeStore`, run synchronously by the `VectorStore` constructor:
extract terms per chunk, build vocabulary and IDF table, attach TF-IDF vectors
and term counts, set `isInitialized`. -/
noncomputable def buildStore (documentChunks : List DocumentChunk) : VectorStore :=
  let allTerms := documentChunks.map (fun c => extractTerms c.text)
  let idf := calculateIDF allTerms
  { chunks := documentChunks.map (fun c =>
      let terms := extractTerms c.text
      { toDocumentChunk := c, tfidfVector := calculateTFIDF idf terms,
        termCount := terms.length }),
    vocabulary := dedupFirst allTerms.flatten,
    idfScores := idf,
    isInitialized := true }

structure SearchResult where
  chunk : ProcessedChunk
  similarity : ℝ
  relevantSentences : List (List Char)

/-- The query vector of `search`. -/
noncomputable def queryVectorOf (st : VectorStore) (query : List Char) : TFIDFVector :=
  calculateTFIDF st.idfScores (extractTerms query)

/-- The `similarities` array of `search`, tagged with each chunk's position so
that the stable sort below can be expressed. -/
noncomputable def scoredChunks (st : VectorStore) (query : List Char) :
    List (Nat × (ProcessedChunk × ℝ)) :=
  (st.chunks.map (fun c => (c, cosineSimilarity (queryVectorOf st query) c.tfidfVector))).enum

/-- The sorted `similarities` array.  A stable sort under the comparator
`(a, b) => b.similarity - a.similarity` produces exactly the unique ordering
that is descending in similarity with ties in original order, which is what
`mergeSort` under `simLE` computes. -/
noncomputable def rankedChunks (st : VectorStore) (query : List Char) :
    List (Nat × (ProcessedChunk × ℝ)) :=
  (scoredChunks st query).mergeSort simLE

/-- The search-result construction of `search` (top-K slice plus key-sentence
extraction); this is what `search` returns when the store is initialized. -/
noncomputable def searchResultsList (st : VectorStore) (query : List Char) (topK : Nat) :
    List SearchResult :=
  ((rankedChunks st query).take topK).map (fun p =>
    { chunk := p.2.1, similarity := p.2.2,
      relevantSentences := extractKeySentences p.2.1.text (extractTerms query) })

/-- `search`, including its not-initialized guard.  The thrown
`Error('Vector store not initialized')` is modelled as `Except.error`. -/
noncomputable def search (st : VectorStore) (query : List Char) (topK : Nat) :
    Except String (List SearchResult) :=
  if st.isInitialized then Except.ok (searchResultsList st query topK)
  else Except.error "Vector store not initialized"

/-- The TypeScript signature `search(query, topK = 5)`: calling without `topK`
uses 5. -/
noncomputable def searchWithDefault (st : VectorStore) (query : List Char) :
    Except String (List SearchResult) :=
  search st query 5

structure VectorStoreStats where
  chunkCount : Nat
  vocabularySize : Nat
  averageChunkLength : Nat
  isInitialized : Bool
deriving DecidableEq

/-- `getStats`.  `Math.round(sum / count)` on nonnegative values is
round-half-up, i.e. `(2 * sum + count) / (2 * count)` in integer division. -/
def getStats (st : VectorStore) : VectorStoreStats :=
  { chunkCount := st.chunks.length,
    vocabularySize := st.vocabulary.length,
    averageChunkLength :=
      if 0 < st.chunks.length then
        (2 * (st.chunks.map (fun c => c.text.length)).sum + st.chunks.length)
          / (2 * st.chunks.length)
      else 0,
    isInitialized := st.isInitialized }

/-! ### Shared lemmas about the store -/

/-- In a duplicate-free list every member has count 1 (for the `BEq`-based
`List.count` used by `calculateTFIDF`). -/
theorem count_eq_one_of_nodup_mem :
    ∀ {terms : List Term}, terms.Nodup → ∀ {t : Term}, t ∈ terms → terms.count t = 1 := by
  intro terms
  induction terms with
  | nil => intro _ t ht; cases ht
  | cons a l ih =>
    intro hnd t ht
    obtain ⟨hal, hl⟩ := List.nodup_cons.mp hnd
    rcases List.mem_cons.mp ht with rfl | ht
    · rw [List.count_cons_self, List.count_eq_zero_of_not_mem hal]
    · rw [List.count_cons_of_ne (fun he => hal (by rw [← he]; exact ht)) l]
      exact ih hl ht

/-- In `calculateTFIDF` over a duplicate-free term list, every stored entry is
`(1 / totalTerms) * idf(term)`: each term frequency is 1. -/
theorem calculateTFIDF_entry_of_nodup (idfScores : List (Term × ℝ)) {terms : List Term}
    (hnd : terms.Nodup) {p : Term × ℝ} (hp : p ∈ calculateTFIDF idfScores terms) :
    p.2 = (1 / (terms.length : ℝ)) * vecVal idfScores p.1 := by
  rw [calculateTFIDF, dedupFirst_of_nodup hnd] at hp
  obtain ⟨t, ht, rfl⟩ := List.mem_map.mp hp
  have hc : terms.count t = 1 := count_eq_one_of_nodup_mem hnd ht
  simp [hc, one_div]

/-- Membership in the IDF key list is exactly positive document frequency. -/
theorem mem_idfKeys_iff {allTerms : List (List Term)} {t : Term} :
    t ∈ dedupFirst (allTerms.map dedupFirst).flatten ↔ 1 ≤ docFreq allTerms t := by
  rw [mem_dedupFirst, List.mem_flatten]
  constructor
  · rintro ⟨d, hd, htd⟩
    obtain ⟨doc, hdoc, rfl⟩ := List.mem_map.mp hd
    have htdoc : t ∈ doc := mem_dedupFirst.mp htd
    have : 0 < docFreq allTerms t :=
      List.countP_pos_iff.mpr ⟨doc, hdoc, by simpa using htdoc⟩
    omega
  · intro h
    obtain ⟨doc, hdoc, hp⟩ := List.countP_pos_iff.mp (by omega : 0 < docFreq allTerms t)
    exact ⟨dedupFirst doc, List.mem_map_of_mem _ hdoc,
      mem_dedupFirst.mpr (by simpa using hp)⟩

/-- The IDF value stored for a term with positive document frequency. -/
theorem vecVal_calculateIDF {allTerms : List (List Term)} {t : Term}
    (h : 1 ≤ docFreq allTerms t) :
    vecVal (calculateIDF allTerms) t
      = Real.log ((allTerms.length : ℝ) / (docFreq allTerms t : ℝ)) := by
  have hmem : t ∈ dedupFirst (allTerms.map dedupFirst).flatten := mem_idfKeys_iff.mpr h
  rw [calculateIDF, vecVal,
    lookup_map_tabulate
      (fun t => Real.log ((allTerms.length : ℝ) / (docFreq allTerms t : ℝ))) hmem]
  rfl

/-- Every stored IDF value is nonnegative: document frequencies lie between 1
and the document count, so `log(N / df) ≥ 0`. -/
theorem calculateIDF_entry_nonneg {allTerms : List (List Term)} {p : Term × ℝ}
    (hp : p ∈ calculateIDF allTerms) : 0 ≤ p.2 := by
  rw [calculateIDF] at hp
  obtain ⟨t, ht, rfl⟩ := List.mem_map.mp hp
  have hdf1 : 1 ≤ docFreq allTerms t := mem_idfKeys_iff.mp ht
  have hdfN : docFreq allTerms t ≤ allTerms.length := List.countP_le_length _
  apply Real.log_nonneg
  have hdpos : (0:ℝ) < (docFreq allTerms t : ℝ) := by exact_mod_cast hdf1
  rw [one_le_div hdpos]
  exact_mod_cast hdfN

/-- Sparse reads of a vector whose stored entries are all nonnegative are
nonnegative (absent keys read 0). -/
theorem vecVal_nonneg_of_entries {v : TFIDFVector} (h : ∀ p ∈ v, 0 ≤ p.2) (k : Term) :
    0 ≤ vecVal v k := by
  rw [vecVal]
  cases hl : v.lookup k with
  | none => simp
  | some x => simpa using h (k, x) (mem_of_lookup_eq_some hl)

/-- TF-IDF entries computed from a nonnegative IDF table are nonnegative. -/
theorem calculateTFIDF_entry_nonneg {idfScores : List (Term × ℝ)}
    (hidf : ∀ p ∈ idfScores, 0 ≤ p.2) {terms : List Term} {p : Term × ℝ}
    (hp : p ∈ calculateTFIDF idfScores terms) : 0 ≤ p.2 := by
  rw [calculateTFIDF] at hp
  obtain ⟨t, ht, rfl⟩ := List.mem_map.mp hp
  have h1 : (0:ℝ) ≤ (terms.count t : ℝ) / (terms.length : ℝ) := by positivity
  exact mul_nonneg h1 (vecVal_nonneg_of_entries hidf t)

theorem sum_map_zero (keys : List Term) : (keys.map (fun _ => (0:ℝ))).sum = 0 := by
  induction keys with
  | nil => rfl
  | cons k ks ih => simp [ih]

/-- The empty sparse vector has zero accumulated squared magnitude over any
key set. -/
theorem magnitudeSq_nil (keys : List Term) : magnitudeSq keys [] = 0 := by
  rw [magnitudeSq]
  have : (fun k => vecVal [] k * vecVal [] k) = (fun _ : Term => (0:ℝ)) := by
    funext k; simp [vecVal]
  rw [this, sum_map_zero]

/-- If either accumulated squared magnitude vanishes, `cosineSimilarity`
takes its guarded branch and returns 0. -/
theorem cosine_zero_of_zero_mag {vA vB : TFIDFVector}
    (h : magnitudeSq (vecKeys vA vB) vA = 0 ∨ magnitudeSq (vecKeys vA vB) vB = 0) :
    cosineSimilarity vA vB = 0 := by
  rcases h with h | h <;>
  · simp only [cosineSimilarity]
    rw [h]
    simp

/-- Cauchy–Schwarz for the accumulated sums of `cosineSimilarity`. -/
theorem dotProductOver_le (keys : List Term) (hnd : keys.Nodup) (vA vB : TFIDFVector) :
    dotProductOver keys vA vB
      ≤ Real.sqrt (magnitudeSq keys vA) * Real.sqrt (magnitudeSq keys vB) := by
  have hd : dotProductOver keys vA vB
      = ∑ k ∈ keys.toFinset, vecVal vA k * vecVal vB k := by
    rw [dotProductOver, ← List.sum_toFinset _ hnd]
  have hA : magnitudeSq keys vA = ∑ k ∈ keys.toFinset, vecVal vA k ^ 2 := by
    rw [magnitudeSq, ← List.sum_toFinset _ hnd]
    exact Finset.sum_congr rfl (fun x _ => (pow_two _).symm)
  have hB : magnitudeSq keys vB = ∑ k ∈ keys.toFinset, vecVal vB k ^ 2 := by
    rw [magnitudeSq, ← List.sum_toFinset _ hnd]
    exact Finset.sum_congr rfl (fun x _ => (pow_two _).symm)
  rw [hd, hA, hB]
  exact Real.sum_mul_le_sqrt_mul_sqrt _ _ _

/-- Bounds of `cosineSimilarity` on coordinatewise-nonnegative vectors. -/
theorem cosineSimilarity_bounds {vA vB : TFIDFVector}
    (hA : ∀ k, 0 ≤ vecVal vA k) (hB : ∀ k, 0 ≤ vecVal vB k) :
    0 ≤ cosineSimilarity vA vB ∧ cosineSimilarity vA vB ≤ 1 := by
  simp only [cosineSimilarity]
  by_cases hm : Real.sqrt (magnitudeSq (vecKeys vA vB) vA)
      * Real.sqrt (magnitudeSq (vecKeys vA vB) vB) = 0
  · rw [if_pos hm]
    norm_num
  · rw [if_neg hm]
    have hge : 0 ≤ Real.sqrt (magnitudeSq (vecKeys vA vB) vA)
        * Real.sqrt (magnitudeSq (vecKeys vA vB) vB) :=
      mul_nonneg (Real.sqrt_nonneg _) (Real.sqrt_nonneg _)
    have hpos : 0 < Real.sqrt (magnitudeSq (vecKeys vA vB) vA)
        * Real.sqrt (magnitudeSq (vecKeys vA vB) vB) :=
      lt_of_le_of_ne hge (Ne.symm hm)
    have hdot : 0 ≤ dotProductOver (vecKeys vA vB) vA vB := by
      rw [dotProductOver]
      apply List.sum_nonneg
      intro x hx
      obtain ⟨k, _, rfl⟩ := List.mem_map.mp hx
      exact mul_nonneg (hA k) (hB k)
    refine ⟨div_nonneg hdot hge, ?_⟩
    rw [div_le_one hpos]
    exact dotProductOver_le _ (nodup_dedupFirst _) vA vB

/-! ### Claim theorems -/

/-- A store whose `isInitialized` flag is still false (the state the spec calls
"before the Indexer has completed building vectors"). -/
def uninitStore : VectorStore :=
  { chunks := [], vocabulary := [], idfScores := [], isInitialized := false }

/-- C3, counterexample: the claim says `getStats` "likewise fails before
readiness", but `getStats` has no `NotInitialized` guard at all: on a store
whose `isInitialized` flag is false it returns a statistics record normally
(reporting the flag as data) instead of failing. -/
theorem getStats_unguarded_counterexample :
    uninitStore.isInitialized = false ∧
    getStats uninitStore
      = { chunkCount := 0, vocabularySize := 0, averageChunkLength := 0,
          isInitialized := false } :=
  ⟨rfl, rfl⟩

/-- C3 (amended): `search` fails (with the not-initialized error) exactly when
the store's `isInitialized` flag is false; `getStats` never fails and instead
reports the readiness flag inside its result. -/
theorem search_error_iff_uninitialized (st : VectorStore) (q : List Char) (k : Nat) :
    ((∃ e, search st q k = Except.error e) ↔ st.isInitialized = false) ∧
    (getStats st).isInitialized = st.isInitialized := by
  refine ⟨⟨?_, ?_⟩, rfl⟩
  · rintro ⟨e, he⟩
    cases hst : st.isInitialized with
    | false => rfl
    | true => rw [search, hst] at he; cases he
  · intro h
    exact ⟨"Vector store not initialized", by rw [search, h]; rfl⟩

/-- C10: the constructor runs `initializeStore` synchronously, so a freshly
built store always has `isInitialized = true`; consequently the
`NotInitialized` branch of `search` is unreachable for constructed stores and
`search` always returns successfully. -/
theorem store_constructor_initializes (documentChunks : List DocumentChunk)
    (q : List Char) (k : Nat) :
    (buildStore documentChunks).isInitialized = true ∧
    search (buildStore documentChunks) q k
      = Except.ok (searchResultsList (buildStore documentChunks) q k) :=
  ⟨rfl, rfl⟩

/-- C7: on a store built from `documentChunks`, `search(q, k)` returns exactly
`min k totalChunks` results, and calling `search` without `topK` is the same
as calling it with 5. -/
theorem search_result_count (documentChunks : List DocumentChunk) (q : List Char) (k : Nat) :
    (searchResultsList (buildStore documentChunks) q k).length = min k documentChunks.length ∧
    searchWithDefault (buildStore documentChunks) q = search (buildStore documentChunks) q 5 := by
  refine ⟨?_, rfl⟩
  simp [searchResultsList, rankedChunks, scoredChunks, buildStore]

/-- The chunk used for concrete witnesses: its text contains the surviving
token "fox" twice and "dog" once. -/
def rawChunk : DocumentChunk :=
  { id := "chunk-0", text := "fox fox dog".toList, pageNumber := 1, chunkIndex := 0,
    startOffset := 0, endOffset := 10 }

/-- C1, counterexample: for the chunk text "fox fox dog" there are three raw
surviving token occurrences (fox, fox, dog), but the stored `termCount` is 2:
`extractTerms` deduplicates before the Indexer counts, so `termCount` is not
`totalRawTermCountInChunk` and term frequencies are presence-based, not raw
counts. -/
theorem termCount_not_raw_counterexample :
    (buildStore [rawChunk]).chunks.map (fun pc => pc.termCount) = [2] ∧
    (survivingTokens rawChunk.text).length = 3 ∧ (2 : Nat) ≠ 3 :=
  ⟨rfl, by decide, by decide⟩

/-- C1 (amended): the Indexer's TF-IDF vectors are presence-based: the stored
`termCount` is the number of distinct surviving terms of the chunk, and every
vector entry equals `(1 / termCount) * idf(term)` — a term occurring k > 1
times contributes frequency 1, because `extractTerms` deduplicates. -/
theorem tfidf_presence_based (documentChunks : List DocumentChunk) (i : Nat)
    (h : i < (buildStore documentChunks).chunks.length) :
    ((buildStore documentChunks).chunks.get ⟨i, h⟩).termCount
      = (extractTerms ((buildStore documentChunks).chunks.get ⟨i, h⟩).text).length ∧
    ∀ p ∈ ((buildStore documentChunks).chunks.get ⟨i, h⟩).tfidfVector,
      p.2 = (1 / (((buildStore documentChunks).chunks.get ⟨i, h⟩).termCount : ℝ))
            * vecVal (buildStore documentChunks).idfScores p.1 := by
  have hi : i < documentChunks.length := by
    simpa [buildStore] using h
  have hget : (buildStore documentChunks).chunks.get ⟨i, h⟩
      = (let terms := extractTerms (documentChunks.get ⟨i, hi⟩).text
         { toDocumentChunk := documentChunks.get ⟨i, hi⟩,
           tfidfVector := calculateTFIDF (buildStore documentChunks).idfScores terms,
           termCount := terms.length }) := by
    simp [buildStore, List.get_eq_getElem, List.getElem_map]
  rw [hget]
  refine ⟨rfl, ?_⟩
  intro p hp
  have hnd : (extractTerms (documentChunks.get ⟨i, hi⟩).text).Nodup :=
    nodup_dedupFirst _
  exact calculateTFIDF_entry_of_nodup _ hnd hp

/-- C1 witness: the amended statement instantiated on a concrete store. -/
theorem tfidf_presence_based_witness :
    ((buildStore [rawChunk]).chunks.get ⟨0, by decide⟩).termCount
      = (extractTerms ((buildStore [rawChunk]).chunks.get ⟨0, by decide⟩).text).length :=
  (tfidf_presence_based [rawChunk] 0 (by decide)).1

/-- A single-document corpus whose only term is "foo". -/
def singleDoc : List (List Term) := [["foo".toList]]

/-- C8, counterexample: with N = 1 chunk, the term "foo" occurs in exactly 1 of
the N chunks and also in all N chunks, yet its IDF (log(1/1) = 0) is not
strictly higher than itself, so the strict-monotonicity sentence fails as
stated; it needs N ≥ 2. -/
theorem idf_monotonicity_counterexample :
    docFreq singleDoc "foo".toList = 1 ∧
    docFreq singleDoc "foo".toList = singleDoc.length ∧
    ¬ (vecVal (calculateIDF singleDoc) "foo".toList
        < vecVal (calculateIDF singleDoc) "foo".toList) :=
  ⟨by decide, by decide, lt_irrefl _⟩

/-- C8 (amended): each part under exactly its own hypotheses.  A term
contained in all N chunks has IDF exactly 0 for any N ≥ 1; over N ≥ 2 chunks,
a term contained in exactly 1 chunk has strictly higher IDF than a term
contained in all N chunks; and — unconditionally — the IDF table only carries
terms whose document frequency is at least 1. -/
theorem idf_extremes (allTerms : List (List Term)) (t1 t2 : Term) :
    (docFreq allTerms t2 = allTerms.length → 1 ≤ allTerms.length →
      vecVal (calculateIDF allTerms) t2 = 0) ∧
    (2 ≤ allTerms.length → docFreq allTerms t1 = 1 →
      docFreq allTerms t2 = allTerms.length →
      vecVal (calculateIDF allTerms) t2 < vecVal (calculateIDF allTerms) t1) ∧
    ∀ p ∈ calculateIDF allTerms, 1 ≤ docFreq allTerms p.1 := by
  refine ⟨?_, ?_, ?_⟩
  · intro h2 hN1
    rw [vecVal_calculateIDF (by omega)]
    rw [h2, div_self (by exact_mod_cast (by omega : allTerms.length ≠ 0)), Real.log_one]
  · intro hN h1 h2
    have hv2 : vecVal (calculateIDF allTerms) t2 = 0 := by
      rw [vecVal_calculateIDF (by omega)]
      rw [h2, div_self (by exact_mod_cast (by omega : allTerms.length ≠ 0)), Real.log_one]
    rw [hv2, vecVal_calculateIDF (by omega), h1]
    apply Real.log_pos
    rw [Nat.cast_one, div_one]
    exact_mod_cast hN
  · intro p hp
    rw [calculateIDF] at hp
    obtain ⟨t, ht, rfl⟩ := List.mem_map.mp hp
    exact mem_idfKeys_iff.mp ht

/-- A two-document corpus: "aaa" occurs in both documents, "bbb" in one. -/
def twoDocs : List (List Term) := [["aaa".toList], ["aaa".toList, "bbb".toList]]

/-- C8 witness: the amended statement instantiated on the two-document corpus
(IDF 0 for the ubiquitous term, strictly higher IDF for the df-1 term) and,
for the IDF-0 part, also on the single-document corpus — the N = 1 case the
original claim mishandles. -/
theorem idf_extremes_witness :
    vecVal (calculateIDF twoDocs) "aaa".toList = 0 ∧
    vecVal (calculateIDF twoDocs) "aaa".toList < vecVal (calculateIDF twoDocs) "bbb".toList ∧
    vecVal (calculateIDF singleDoc) "foo".toList = 0 :=
  ⟨(idf_extremes twoDocs "bbb".toList "aaa".toList).1 (by decide) (by decide),
   (idf_extremes twoDocs "bbb".toList "aaa".toList).2.1 (by decide) (by decide) (by decide),
   (idf_extremes singleDoc "foo".toList "foo".toList).1 (by decide) (by decide)⟩

/-- The all-stop-word query of the specification's zero-vector example. -/
def stopQuery : List Char := "the and of".toList

/-- C5: if either vector's accumulated squared magnitude is zero the guarded
division branch is not taken and the similarity is 0; in particular a query
consisting only of stop-words ("the and of") has an empty term list, hence an
all-zero query vector, and similarity 0 against every chunk vector. -/
theorem zero_norm_similarity :
    (∀ vA vB : TFIDFVector,
        magnitudeSq (vecKeys vA vB) vA = 0 ∨ magnitudeSq (vecKeys vA vB) vB = 0 →
        cosineSimilarity vA vB = 0) ∧
    (∀ st : VectorStore, ∀ v : TFIDFVector,
        cosineSimilarity (calculateTFIDF st.idfScores (extractTerms stopQuery)) v = 0) := by
  refine ⟨fun vA vB h => cosine_zero_of_zero_mag h, fun st v => ?_⟩
  have hterms : extractTerms stopQuery = [] := by decide
  have hq : calculateTFIDF st.idfScores (extractTerms stopQuery) = [] := by
    rw [hterms]; rfl
  rw [hq]
  exact cosine_zero_of_zero_mag (Or.inl (magnitudeSq_nil _))

/-- C5 witness: the zero-norm case instantiated on concrete vectors. -/
theorem zero_norm_similarity_witness :
    cosineSimilarity [] [("dog".toList, (1:ℝ))] = 0 :=
  zero_norm_similarity.1 [] [("dog".toList, 1)] (Or.inl (magnitudeSq_nil _))

/-- C4: for every chunk of a built store and every query, the cosine
similarity between the query's TF-IDF vector and the chunk's TF-IDF vector
lies in [0, 1]: all TF-IDF weights are nonnegative (tf ≥ 0 and idf =
log(N/df) ≥ 0 since df ≤ N), so the dot product is nonnegative and
Cauchy–Schwarz bounds it by the product of the norms. -/
theorem similarity_bounds (documentChunks : List DocumentChunk) (q : List Char)
    (i : Nat) (h : i < (buildStore documentChunks).chunks.length) :
    0 ≤ cosineSimilarity (queryVectorOf (buildStore documentChunks) q)
        (((buildStore documentChunks).chunks.get ⟨i, h⟩).tfidfVector) ∧
    cosineSimilarity (queryVectorOf (buildStore documentChunks) q)
        (((buildStore documentChunks).chunks.get ⟨i, h⟩).tfidfVector) ≤ 1 := by
  have hidf : ∀ p ∈ (buildStore documentChunks).idfScores, 0 ≤ p.2 := by
    intro p hp
    exact calculateIDF_entry_nonneg hp
  apply cosineSimilarity_bounds
  · exact vecVal_nonneg_of_entries (fun p hp => calculateTFIDF_entry_nonneg hidf hp)
  · have hi : i < documentChunks.length := by simpa [buildStore] using h
    have hget : (buildStore documentChunks).chunks.get ⟨i, h⟩
        = { toDocumentChunk := documentChunks.get ⟨i, hi⟩,
            tfidfVector := calculateTFIDF (buildStore documentChunks).idfScores
              (extractTerms (documentChunks.get ⟨i, hi⟩).text),
            termCount := (extractTerms (documentChunks.get ⟨i, hi⟩).text).length } := by
      simp [buildStore, List.get_eq_getElem, List.getElem_map]
    rw [hget]
    exact vecVal_nonneg_of_entries (fun p hp => calculateTFIDF_entry_nonneg hidf hp)

/-- C4 witness: the bounds instantiated on a concrete store and query. -/
theorem similarity_bounds_witness :
    0 ≤ cosineSimilarity (queryVectorOf (buildStore [rawChunk]) "fox".toList)
        (((buildStore [rawChunk]).chunks.get ⟨0, by decide⟩).tfidfVector) :=
  (similarity_bounds [rawChunk] "fox".toList 0 (by decide)).1

/-- Chunk text used for the key-sentence counterexample. -/
def dupQueryText : List Char := "apple. banana banana.".toList

/-- A query-term list with a duplicated entry (as the claim quantifies over
every query-term list). -/
def dupQueryTerms : List (List Char) := ["apple", "apple", "banana"].map String.toList

/-- C9, counterexample: for the chunk text "apple. banana banana." and the
query-term list [apple, apple, banana], only ONE distinct query term appears
in the sentence "apple", so under the claim's scoring (bonus gated on more
than one DISTINCT term found) its score is 10 while "banana banana" scores 12;
yet the code returns "apple" first, because its found-terms filter counts the
duplicated list entry twice and awards the bonus (score 110).  The returned
sequence is therefore not sorted descending by the claim's score. -/
theorem keySentence_distinct_bonus_counterexample :
    extractKeySentences dupQueryText dupQueryTerms
      = ["apple", "banana banana"].map String.toList ∧
    specSentenceScore (dupQueryTerms.map (fun t => t.map Char.toLower)) "apple".toList
      < specSentenceScore (dupQueryTerms.map (fun t => t.map Char.toLower))
          "banana banana".toList :=
  ⟨by decide, by decide⟩

/-- C9 (amended): `extractKeySentences` returns at most 3 sentences, each with
positive score, sorted descending by score — where the score's bonus counts
the query-term list entries found in the sentence with multiplicity (50 per
entry found, awarded when more than one entry is found), not distinct terms. -/
theorem extractKeySentences_spec (text : List Char) (queryTerms : List (List Char)) :
    (extractKeySentences text queryTerms).length ≤ 3 ∧
    (∀ s ∈ extractKeySentences text queryTerms,
        0 < sentenceScore (queryTerms.map (fun t => t.map Char.toLower)) s) ∧
    (extractKeySentences text queryTerms).Pairwise
      (fun s1 s2 => sentenceScore (queryTerms.map (fun t => t.map Char.toLower)) s2
        ≤ sentenceScore (queryTerms.map (fun t => t.map Char.toLower)) s1) := by
  simp only [extractKeySentences]
  set qtl := queryTerms.map (fun t => t.map Char.toLower) with hqtl
  set scored := (((splitOnPred isPunct text).map trim).filter (fun s => !s.isEmpty)).map
    (fun s => (s, sentenceScore qtl s)) with hscored
  set kept := scored.filter (fun p => decide (0 < p.2)) with hkept
  have hinv : ∀ p ∈ (kept.mergeSort (fun a b => decide (b.2 ≤ a.2))).take 3,
      p.2 = sentenceScore qtl p.1 ∧ 0 < p.2 := by
    intro p hp
    have hp1 : p ∈ kept.mergeSort (fun a b => decide (b.2 ≤ a.2)) :=
      (List.take_sublist _ _).mem hp
    have hp2 : p ∈ kept := List.mem_mergeSort.mp hp1
    have hp3 : p ∈ scored := List.mem_of_mem_filter hp2
    obtain ⟨s, _, rfl⟩ := List.mem_map.mp hp3
    refine ⟨rfl, ?_⟩
    have := List.of_mem_filter hp2
    simpa using this
  refine ⟨?_, ?_, ?_⟩
  · rw [List.length_map, List.length_take]
    omega
  · intro s hs
    obtain ⟨p, hp, rfl⟩ := List.mem_map.mp hs
    obtain ⟨he, hpos⟩ := hinv p hp
    rw [← he]
    exact hpos
  · have hsorted : (kept.mergeSort (fun a b => decide (b.2 ≤ a.2))).Pairwise
        (fun a b => (decide (b.2 ≤ a.2)) = true) := by
      apply List.sorted_mergeSort
      · intro a b c hab hbc
        simp only [decide_eq_true_eq] at hab hbc ⊢
        omega
      · intro a b
        rcases Nat.le_total b.2 a.2 with h | h <;> simp [h]
    have htake : ((kept.mergeSort (fun a b => decide (b.2 ≤ a.2))).take 3).Pairwise
        (fun a b => (decide (b.2 ≤ a.2)) = true) :=
      hsorted.sublist (List.take_sublist _ _)
    have htrans : ((kept.mergeSort (fun a b => decide (b.2 ≤ a.2))).take 3).Pairwise
        (fun a b => sentenceScore qtl b.1 ≤ sentenceScore qtl a.1) := by
      refine htake.imp_of_mem ?_
      intro a b ha hb hab
      rw [← (hinv a ha).1, ← (hinv b hb).1]
      simpa using hab
    exact (List.pairwise_map).mpr htrans

/-- C9 witness: positivity of the score of a returned sentence, via the
amended statement at a concrete input. -/
theorem extractKeySentences_spec_witness :
    0 < sentenceScore (dupQueryTerms.map (fun t => t.map Char.toLower)) "apple".toList :=
  (extractKeySentences_spec dupQueryText dupQueryTerms).2.1 "apple".toList (by decide)

theorem simLE_trans {a b c : Nat × (ProcessedChunk × ℝ)}
    (hab : simLE a b = true) (hbc : simLE b c = true) : simLE a c = true := by
  simp only [simLE, decide_eq_true_eq] at hab hbc ⊢
  rcases hab with hab | ⟨hab, hab1⟩
  · rcases hbc with hbc | ⟨hbc, _⟩
    · exact Or.inl (lt_trans hbc hab)
    · exact Or.inl (hbc ▸ hab)
  · rcases hbc with hbc | ⟨hbc, hbc1⟩
    · exact Or.inl (hab ▸ hbc)
    · exact Or.inr ⟨hab.trans hbc, hab1.trans hbc1⟩

theorem simLE_total (a b : Nat × (ProcessedChunk × ℝ)) :
    (simLE a b || simLE b a) = true := by
  simp only [simLE, Bool.or_eq_true, decide_eq_true_eq]
  rcases lt_trichotomy a.2.2 b.2.2 with h | h | h
  · exact Or.inr (Or.inl h)
  · rcases Nat.le_total a.1 b.1 with h1 | h1
    · exact Or.inl (Or.inr ⟨h, h1⟩)
    · exact Or.inr (Or.inr ⟨h.symm, h1⟩)
  · exact Or.inl (Or.inl h)

/-- C6: `search` is deterministic — the model of the search pipeline is a pure
function of the store, the query and `topK`, so equal inputs yield equal output
(third conjunct) — and the ranked sequence it returns is sorted descending by
similarity with ties broken by original chunk position (strictly increasing
indices within a tie class), which is exactly the order a stable sort under
the comparator `(a, b) => b.similarity - a.similarity` produces.  The second
conjunct ties the returned results to that ranked sequence. -/
theorem search_stable_order (st : VectorStore) (q : List Char) (k : Nat) :
    (rankedChunks st q).Pairwise
      (fun a b => b.2.2 < a.2.2 ∨ (a.2.2 = b.2.2 ∧ a.1 < b.1)) ∧
    searchResultsList st q k
      = ((rankedChunks st q).take k).map (fun p =>
          { chunk := p.2.1, similarity := p.2.2,
            relevantSentences := extractKeySentences p.2.1.text (extractTerms q) }) ∧
    searchResultsList st q k = searchResultsList st q k := by
  refine ⟨?_, rfl, rfl⟩
  have hsorted0 : ((scoredChunks st q).mergeSort simLE).Pairwise
      (fun a b => simLE a b = true) :=
    List.sorted_mergeSort (fun a b c hab hbc => @simLE_trans a b c hab hbc)
      (fun a b => simLE_total a b) (scoredChunks st q)
  have hsorted : (rankedChunks st q).Pairwise (fun a b => simLE a b = true) := hsorted0
  have hperm : List.Perm (rankedChunks st q) (scoredChunks st q) :=
    List.mergeSort_perm _ _
  have hndsrc : ((scoredChunks st q).map Prod.fst).Nodup := by
    rw [scoredChunks, List.enum_map_fst]
    exact List.nodup_range _
  have hnd : ((rankedChunks st q).map Prod.fst).Nodup :=
    ((hperm.map Prod.fst).nodup_iff).mpr hndsrc
  have hne : (rankedChunks st q).Pairwise (fun a b => a.1 ≠ b.1) :=
    (List.pairwise_map).mp hnd
  refine hsorted.imp₂ (fun a b hab hne1 => ?_) hne
  simp only [simLE, decide_eq_true_eq] at hab
  rcases hab with hab | ⟨hab, hab1⟩
  · exact Or.inl hab
  · exact Or.inr ⟨hab, lt_of_le_of_ne hab1 hne1⟩

/-! ### Chunk-size claims -/

/-- The shape of every chunk text `chunkText` emits: the trim of a buffer that
met the minimum size (or break point) requirement before trimming. -/
def TrimOfBig (c : DocumentChunk) : Prop :=
  ∃ s, c.text = trim s ∧ minSize ≤ s.length

theorem stepAppend_inv (pageBreaks : List Int) (st : ChunkState) (para : List Char)
    (hinv : ∀ c ∈ st.chunks, TrimOfBig c) :
    ∀ c ∈ (stepAppend pageBreaks st para).chunks, TrimOfBig c := by
  intro c hc
  rw [stepAppend] at hc
  by_cases h1 : !st.currentChunk.isEmpty ∧ maxSize < st.currentChunk.length + para.length
  · rw [if_pos h1] at hc
    by_cases h2 : minSize ≤ st.currentChunk.length
    · rw [if_pos h2] at hc
      have hc2 : c ∈ st.chunks ++ [createChunk (trim st.currentChunk) st.chunkIndex
          st.chunkStartPosition (st.currentPosition - 1) pageBreaks] := hc
      rcases List.mem_append.mp hc2 with hc3 | hc3
      · exact hinv c hc3
      · rw [List.mem_singleton] at hc3
        subst hc3
        exact ⟨st.currentChunk, rfl, h2⟩
    · rw [if_neg h2] at hc
      exact hinv c hc
  · rw [if_neg h1] at hc
    split at hc <;> exact hinv c hc

theorem stepTargetBreak_inv (pageBreaks : List Int) (st : ChunkState)
    (hinv : ∀ c ∈ st.chunks, TrimOfBig c) :
    ∀ c ∈ (stepTargetBreak pageBreaks st).chunks, TrimOfBig c := by
  intro c hc
  rw [stepTargetBreak] at hc
  by_cases h1 : targetSize ≤ st.currentChunk.length
  · rw [if_pos h1] at hc
    by_cases h2 : minSize < findGoodBreakPoint st.currentChunk
    · rw [if_pos h2] at hc
      have hc2 : c ∈ st.chunks ++ [createChunk
          (trim (st.currentChunk.take (findGoodBreakPoint st.currentChunk))) st.chunkIndex
          st.chunkStartPosition
          (st.chunkStartPosition + ((findGoodBreakPoint st.currentChunk : Nat) : Int))
          pageBreaks] := hc
      rcases List.mem_append.mp hc2 with hc3 | hc3
      · exact hinv c hc3
      · rw [List.mem_singleton] at hc3
        subst hc3
        refine ⟨st.currentChunk.take (findGoodBreakPoint st.currentChunk), rfl, ?_⟩
        rw [List.length_take]
        have hm : minSize = 200 := rfl
        have ht : targetSize = 800 := rfl
        omega
    · rw [if_neg h2] at hc
      exact hinv c hc
  · rw [if_neg h1] at hc
    exact hinv c hc

theorem processParagraph_inv (pageBreaks : List Int) (st : ChunkState) (rawPara : List Char)
    (hinv : ∀ c ∈ st.chunks, TrimOfBig c) :
    ∀ c ∈ (processParagraph pageBreaks st rawPara).chunks, TrimOfBig c := by
  intro c hc
  rw [processParagraph] at hc
  by_cases h1 : (trim rawPara).isEmpty
  · rw [if_pos h1] at hc
    exact hinv c hc
  · rw [if_neg h1] at hc
    refine stepTargetBreak_inv pageBreaks _ ?_ c hc
    intro x hx
    exact stepAppend_inv pageBreaks st (trim rawPara) hinv x hx

theorem foldl_chunks_inv (pageBreaks : List Int) :
    ∀ (paras : List (List Char)) (st : ChunkState),
      (∀ c ∈ st.chunks, TrimOfBig c) →
      ∀ c ∈ (paras.foldl (processParagraph pageBreaks) st).chunks, TrimOfBig c := by
  intro paras
  induction paras with
  | nil => intro st h; simpa using h
  | cons p paras ih =>
    intro st h
    exact ih _ (processParagraph_inv pageBreaks st p h)

/-- C2 (amended): every chunk emitted by `chunkText` is the trim of a buffer of
length at least `minSize` (for the sentence-boundary path, of a slice longer
than `minSize`); because the minimum-size checks happen before trimming, the
emitted text itself can be shorter than `minSize` by the trimmed whitespace.
A trailing buffer shorter than `minSize` is still dropped, never emitted. -/
theorem chunkText_emits_trim_of_big (text : List Char) (pageBreaks : List Int) :
    ∀ c ∈ chunkText text pageBreaks, ∃ s, c.text = trim s ∧ minSize ≤ s.length := by
  have hfold : ∀ c ∈ ((splitParagraphs text).foldl (processParagraph pageBreaks)
      ⟨[], 0, 0, [], 0⟩).chunks, TrimOfBig c :=
    foldl_chunks_inv pageBreaks _ _ (by intro x hx; cases hx)
  intro c hc
  rw [chunkText] at hc
  set st := (splitParagraphs text).foldl (processParagraph pageBreaks) ⟨[], 0, 0, [], 0⟩
    with hst
  by_cases h1 : !(trim st.currentChunk).isEmpty ∧ minSize ≤ st.currentChunk.length
  · rw [if_pos h1] at hc
    have hc2 : c ∈ st.chunks ++ [createChunk (trim st.currentChunk) st.chunkIndex
        st.chunkStartPosition (st.currentPosition - 1) pageBreaks] := hc
    rcases List.mem_append.mp hc2 with hc3 | hc3
    · exact hfold c hc3
    · rw [List.mem_singleton] at hc3
      subst hc3
      exact ⟨st.currentChunk, rfl, h1.2⟩
  · rw [if_neg h1] at hc
    exact hfold c hc

/-- The 952-character single-paragraph text on which `chunkText` emits an
undersized chunk: `findGoodBreakPoint` (whose cumulative positions assume
1-character delimiters) returns break point 201, and the emitted slice of 201
characters ends in 50 spaces, so its trim has only 151 characters. -/
def cexText : List Char :=
  List.replicate 150 'a' ++ ['.'] ++ List.replicate 50 ' ' ++
  List.replicate 49 'b' ++ ['.', ' '] ++ List.replicate 700 'c'

set_option maxRecDepth 10000 in
/-- C2, counterexample: `chunkText` emits a chunk whose text length (151) is
strictly below `minSize` (200) — the size guards run before the final trim. -/
theorem chunk_minSize_counterexample :
    ∃ c ∈ chunkText cexText [], c.text.length < minSize := by
  have h : (chunkText cexText []).map (fun c => c.text.length) = [151, 851] := by decide
  rcases hl : chunkText cexText [] with _ | ⟨c, rest⟩
  · rw [hl] at h
    simp at h
  · rw [hl] at h
    simp only [List.map_cons, List.cons.injEq] at h
    refine ⟨c, List.mem_cons_self _ _, ?_⟩
    rw [h.1]
    decide

set_option maxRecDepth 10000 in
/-- C2 witness: the amended statement instantiated at the first chunk of the
concrete text. -/
theorem chunkText_emits_trim_of_big_witness :
    ∃ c ∈ chunkText cexText [], ∃ s, c.text = trim s ∧ minSize ≤ s.length := by
  have hne : chunkText cexText [] ≠ [] := by
    intro hnil
    have hlen := congrArg List.length hnil
    rw [show (chunkText cexText []).length = 2 from by decide] at hlen
    simp at hlen
  exact ⟨_, List.head_mem hne,
    chunkText_emits_trim_of_big cexText [] _ (List.head_mem hne)⟩

end Chatbot
